import Mathlib

/-!
Verification of the security module of the
`international-compliance-frameworks` repository
(`src/advanced_security_module.py`, class `QuantumSecurityModule`).

The Python module is shallowly embedded below.  Conventions of the
embedding, stated once here and referenced from the definitions:

* Python byte strings are `List Nat`; machine integers do not occur.
* `time.time()` and `datetime.utcnow()` are modelled by an explicit
  `now : Nat` parameter threaded through every operation
  (`int(time.time())` is `now` itself, rendered in decimal).
* Randomness (`Crypto.Random.get_random_bytes`, the GCM nonce drawn by
  `AES.new`) is modelled by explicit entropy parameters: the key is a
  constructor argument and each `encrypt_data` call receives the nonce
  the library would have drawn.
* Third-party cryptographic primitives are not part of the repository;
  they are modelled by their documented functional contracts:
  AES-GCM by its CTR-mode shape (a keystream XOR-mask per `(key, nonce)`
  plus an authentication tag over `(key, nonce, ciphertext)` whose
  contract is that distinct inputs give distinct tags), and SHA-256 by a
  deterministic collision-free digest function.  The concrete stand-in
  functions below realise these contracts; none of the claims depends on
  the actual bit-mixing of AES or SHA-256.
* `base64` transport encoding of envelope fields is elided: it is a
  bijection between byte strings and text, so the embedding works
  directly with the decoded bytes.
* `str.encode("utf-8")` / `bytes.decode("utf-8")` are modelled as the
  injective serialization of a string into its list of code points and
  its partial inverse; the claims never depend on the width of the
  byte-level encoding of a single code point.
* Python exception texts (`str(e)`) are modelled by fixed strings; the
  claims depend on a failure event being logged with the error text, not
  on the exact wording.
-/

/-! ## JSON values

Payloads handled by the module are UTF-8 strings or JSON-serializable
mappings (`json.dumps` / `json.loads`).  JSON numbers are modelled as
integers; payloads containing floating-point numbers are outside the
model.  Mapping keys are strings, as `json.dumps` requires.
-/

/-- A JSON value, as produced by `json.loads` and consumed by
`json.dumps`.  Objects are key/value lists in insertion order, matching
Python dicts. -/
inductive JValue where
  | jnull : JValue
  | jbool : Bool → JValue
  | jnum : Int → JValue
  | jstr : String → JValue
  | jarr : List JValue → JValue
  | jobj : List (String × JValue) → JValue

mutual
/-- Boolean structural equality on JSON values (Python `==` on parsed
JSON data). -/
def jeq : JValue → JValue → Bool
  | .jnull, .jnull => true
  | .jbool a, .jbool b => a == b
  | .jnum a, .jnum b => a == b
  | .jstr a, .jstr b => a == b
  | .jarr a, .jarr b => jeqL a b
  | .jobj a, .jobj b => jeqM a b
  | _, _ => false

/-- elementwise `jeq` on arrays. -/
def jeqL : List JValue → List JValue → Bool
  | [], [] => true
  | a :: as, b :: bs => jeq a b && jeqL as bs
  | _, _ => false

/-- memberwise `jeq` on objects. -/
def jeqM : List (String × JValue) → List (String × JValue) → Bool
  | [], [] => true
  | (k, v) :: ms, (k2, v2) :: ns => k == k2 && jeq v v2 && jeqM ms ns
  | _, _ => false
end

theorem jeq_iff_aux : ∀ n : Nat,
    (∀ a b : JValue, sizeOf a ≤ n → (jeq a b = true ↔ a = b)) ∧
    (∀ as bs : List JValue, sizeOf as ≤ n → (jeqL as bs = true ↔ as = bs)) ∧
    (∀ ms ns : List (String × JValue), sizeOf ms ≤ n → (jeqM ms ns = true ↔ ms = ns)) := by
  intro n
  induction n using Nat.strong_induction_on with
  | _ n ih =>
    refine ⟨?_, ?_, ?_⟩
    · intro a b hn
      cases a with
      | jnull => cases b <;> simp [jeq]
      | jbool x => cases b <;> simp [jeq]
      | jnum x => cases b <;> simp [jeq]
      | jstr x => cases b <;> simp [jeq]
      | jarr xs =>
        cases b with
        | jarr ys =>
          have hlt : sizeOf xs < n := by simp_arith at hn; omega
          simp [jeq, (ih _ hlt).2.1 xs ys (Nat.le_refl _)]
        | jnull => simp [jeq]
        | jbool y => simp [jeq]
        | jnum y => simp [jeq]
        | jstr y => simp [jeq]
        | jobj ns => simp [jeq]
      | jobj ms =>
        cases b with
        | jobj ns =>
          have hlt : sizeOf ms < n := by simp_arith at hn; omega
          simp [jeq, (ih _ hlt).2.2 ms ns (Nat.le_refl _)]
        | jnull => simp [jeq]
        | jbool y => simp [jeq]
        | jnum y => simp [jeq]
        | jstr y => simp [jeq]
        | jarr ys => simp [jeq]
    · intro as bs hn
      cases as with
      | nil => cases bs <;> simp [jeqL]
      | cons x xs =>
        cases bs with
        | nil => simp [jeqL]
        | cons y ys =>
          have hx : sizeOf x < n := by simp_arith at hn; omega
          have hxs : sizeOf xs < n := by simp_arith at hn; omega
          simp [jeqL, (ih _ hx).1 x y (Nat.le_refl _),
            (ih _ hxs).2.1 xs ys (Nat.le_refl _)]
    · intro ms ns hn
      cases ms with
      | nil => cases ns <;> simp [jeqM]
      | cons kv ms' =>
        cases ns with
        | nil => obtain ⟨k, v⟩ := kv; simp [jeqM]
        | cons kv2 ns' =>
          obtain ⟨k, v⟩ := kv
          obtain ⟨k2, v2⟩ := kv2
          have hv : sizeOf v < n := by simp_arith at hn; omega
          have hms : sizeOf ms' < n := by simp_arith at hn; omega
          simp [jeqM, (ih _ hv).1 v v2 (Nat.le_refl _),
            (ih _ hms).2.2 ms' ns' (Nat.le_refl _), and_assoc]

instance : DecidableEq JValue := fun a b =>
  decidable_of_iff (jeq a b = true) ((jeq_iff_aux (sizeOf a)).1 a b (Nat.le_refl _))

/-- A payload passed to the module: a string, a dict, or (to exercise the
failure paths) an int, which has no `.encode` attribute. -/
inductive PyData where
  | pstr : String → PyData
  | pdict : List (String × JValue) → PyData
  | pint : Int → PyData
deriving DecidableEq

/-- Decimal digit character table (`0 ↦ '0'`, …, `9 ↦ '9'`; other inputs
default to `'9'`, never reached on digits produced by `Nat.digits 10`). -/
def digitChar : Nat → Char
  | 0 => '0' | 1 => '1' | 2 => '2' | 3 => '3' | 4 => '4'
  | 5 => '5' | 6 => '6' | 7 => '7' | 8 => '8' | _ => '9'

/-- Digits of `n`, most significant first, by repeated division; the
fuel (first argument) makes the recursion structural, and any fuel
`≥ n` is enough. -/
def natDecAux : Nat → Nat → List Char
  | 0, _ => []
  | f + 1, n => if n = 0 then [] else natDecAux f (n / 10) ++ [digitChar (n % 10)]

/-- Decimal rendering of a natural number, most significant digit first,
as Python `str` renders it. -/
def natDec (n : Nat) : List Char :=
  if n = 0 then ['0'] else natDecAux n n

/-- Decimal rendering of a Python int (`str(i)`). -/
def intDec (i : Int) : List Char :=
  if i < 0 then '-' :: natDec i.natAbs else natDec i.toNat

/-- JSON string-body escaping as `json.dumps` performs it for the
characters the model covers: `"` and `\` are backslash-escaped, all other
characters pass through.  (Python additionally `\uXXXX`-escapes control
and non-ASCII characters; that is a bijective transport variation the
model elides.) -/
def escList : List Char → List Char
  | [] => []
  | c :: t => if c = '"' ∨ c = '\\' then '\\' :: c :: escList t else c :: escList t

mutual
/-- Serializer `json.dumps` with Python's default separators `", "` and `": "`,
rendered as a character list. -/
def dumpJ : JValue → List Char
  | .jnull => ['n', 'u', 'l', 'l']
  | .jbool true => ['t', 'r', 'u', 'e']
  | .jbool false => ['f', 'a', 'l', 's', 'e']
  | .jnum i => intDec i
  | .jstr s => '"' :: (escList s.data ++ ['"'])
  | .jarr [] => ['[', ']']
  | .jarr (x :: xs) => '[' :: ((dumpJ x ++ dumpTail xs) ++ [']'])
  | .jobj [] => ['{', '}']
  | .jobj (kv :: kvs) => '{' :: ((dumpKV kv ++ dumpKVTail kvs) ++ ['}'])

/-- remaining array elements, each preceded by `", "`. -/
def dumpTail : List JValue → List Char
  | [] => []
  | x :: xs => ',' :: ' ' :: (dumpJ x ++ dumpTail xs)

/-- one `"key": value` object member. -/
def dumpKV : String × JValue → List Char
  | (k, v) => '"' :: (escList k.data ++ '"' :: ':' :: ' ' :: dumpJ v)

/-- remaining object members, each preceded by `", "`. -/
def dumpKVTail : List (String × JValue) → List Char
  | [] => []
  | kv :: kvs => ',' :: ' ' :: (dumpKV kv ++ dumpKVTail kvs)
end

/-- Python `json.dumps(v)` as a string. -/
def pyJsonDumps (v : JValue) : String := String.mk (dumpJ v)

/-- Python string comparison (code-point lexicographic), the order used
by `sorted` on dict keys. -/
def charListLe : List Char → List Char → Bool
  | [], _ => true
  | x :: xs, y :: ys =>
    if x.toNat < y.toNat then true
    else if y.toNat < x.toNat then false
    else charListLe xs ys
  | _ :: _, [] => false

/-- Key order for `json.dumps(…, sort_keys=True)`. -/
def keyLe (a b : String × JValue) : Bool := charListLe a.1.data b.1.data

mutual
/-- Recursively sort every object's members by key — the structural
effect of `json.dumps(…, sort_keys=True)`. -/
def sortJ : JValue → JValue
  | .jobj kvs => .jobj ((sortJM kvs).mergeSort keyLe)
  | .jarr xs => .jarr (sortJL xs)
  | .jnull => .jnull
  | .jbool b => .jbool b
  | .jnum i => .jnum i
  | .jstr s => .jstr s

/-- Map of `sortJ` over array elements. -/
def sortJL : List JValue → List JValue
  | [] => []
  | x :: xs => sortJ x :: sortJL xs

/-- Map of `sortJ` over object member values. -/
def sortJM : List (String × JValue) → List (String × JValue)
  | [] => []
  | (k, v) :: kvs => (k, sortJ v) :: sortJM kvs
end

/-- Python `json.dumps(v, sort_keys=True)` as a string. -/
def pyJsonDumpsSorted (v : JValue) : String := String.mk (dumpJ (sortJ v))

mutual
/-- Fuel measure for the JSON parser: enough recursion budget to consume
a value printed by `dumpJ`. -/
def jsize : JValue → Nat
  | .jarr xs => 1 + jsizeL xs
  | .jobj kvs => 1 + jsizeM kvs
  | _ => 1

/-- fuel for an array element list. -/
def jsizeL : List JValue → Nat
  | [] => 0
  | x :: xs => jsize x + 1 + jsizeL xs

/-- fuel for an object member list. -/
def jsizeM : List (String × JValue) → Nat
  | [] => 0
  | (_, v) :: kvs => jsize v + 1 + jsizeM kvs
end

/-! ## JSON parsing (`json.loads`)

A recursive-descent parser over character lists, with a fuel parameter
for termination.  It accepts everything `dumpJ` produces (and standard
JSON built from the modelled value grammar); as with `dumpJ`, numbers
are integers and string escapes cover `\"` and `\\`.
-/

/-- JSON whitespace. -/
def isWsChar (c : Char) : Bool := c = ' ' || c = '\t' || c = '\n' || c = '\r'

/-- Skip leading whitespace. -/
def skipWs : List Char → List Char
  | [] => []
  | c :: t => if isWsChar c then skipWs t else c :: t

/-- ASCII decimal digit test. -/
def isDigitChar (c : Char) : Bool := 48 ≤ c.toNat && c.toNat ≤ 57

/-- Strip an expected literal from the input. -/
def dropLit : List Char → List Char → Option (List Char)
  | [], l => some l
  | _ :: _, [] => none
  | e :: es, c :: t => if c = e then dropLit es t else none

/-- Parse a JSON string body after the opening quote: returns the
unescaped content and the input after the closing quote. -/
def parseStringBody : List Char → Option (List Char × List Char)
  | [] => none
  | c :: t =>
    if c = '\\' then
      match t with
      | [] => none
      | e :: t2 =>
        if e = '"' ∨ e = '\\' then
          (parseStringBody t2).map (fun p => (e :: p.1, p.2))
        else none
    else if c = '"' then some ([], t)
    else (parseStringBody t).map (fun p => (c :: p.1, p.2))

/-- Split the longest leading run of decimal digits from the input. -/
def takeDigits : List Char → List Char × List Char
  | [] => ([], [])
  | c :: t =>
    if isDigitChar c then
      let p := takeDigits t
      (c :: p.1, p.2)
    else ([], c :: t)

/-- Value of a list of decimal digit characters, most significant first. -/
def digitsToNat (l : List Char) : Nat :=
  l.foldl (fun a c => a * 10 + (c.toNat - 48)) 0

mutual
/-- Parse one JSON value; returns it and the remaining input. -/
def parseV : Nat → List Char → Option (JValue × List Char)
  | 0, _ => none
  | f + 1, l =>
    match skipWs l with
    | [] => none
    | c :: t =>
      if c = '"' then
        (parseStringBody t).map (fun p => (JValue.jstr (String.mk p.1), p.2))
      else if c = '[' then
        match skipWs t with
        | ']' :: r => some (.jarr [], r)
        | t2 => (parseItems f t2).map (fun p => (.jarr p.1, p.2))
      else if c = '{' then
        match skipWs t with
        | '}' :: r => some (.jobj [], r)
        | t2 => (parseMembers f t2).map (fun p => (.jobj p.1, p.2))
      else if c = 't' then
        (dropLit ['r', 'u', 'e'] t).map (fun r => (.jbool true, r))
      else if c = 'f' then
        (dropLit ['a', 'l', 's', 'e'] t).map (fun r => (.jbool false, r))
      else if c = 'n' then
        (dropLit ['u', 'l', 'l'] t).map (fun r => (.jnull, r))
      else if c = '-' then
        match takeDigits t with
        | ([], _) => none
        | (ds, r) => some (.jnum (-(digitsToNat ds : Int)), r)
      else if isDigitChar c then
        match takeDigits (c :: t) with
        | (ds, r) => some (.jnum (digitsToNat ds : Int), r)
      else none

/-- Parse the elements of a non-empty array, up to and including the
closing bracket. -/
def parseItems : Nat → List Char → Option (List JValue × List Char)
  | 0, _ => none
  | f + 1, l =>
    (parseV f l).bind (fun p =>
      match skipWs p.2 with
      | ',' :: r2 => (parseItems f (skipWs r2)).map (fun q => (p.1 :: q.1, q.2))
      | ']' :: r2 => some ([p.1], r2)
      | _ => none)

/-- Parse the members of a non-empty object, up to and including the
closing brace. -/
def parseMembers : Nat → List Char → Option (List (String × JValue) × List Char)
  | 0, _ => none
  | f + 1, l =>
    match skipWs l with
    | [] => none
    | c :: t =>
      if c = '"' then
        (parseStringBody t).bind (fun kp =>
          match skipWs kp.2 with
          | ':' :: r2 =>
            (parseV f r2).bind (fun vp =>
              match skipWs vp.2 with
              | ',' :: r4 =>
                (parseMembers f r4).map (fun q => ((String.mk kp.1, vp.1) :: q.1, q.2))
              | '}' :: r4 => some ([(String.mk kp.1, vp.1)], r4)
              | _ => none)
          | _ => none)
      else none
end

/-- Python `json.loads(s)`: parse one value and require only whitespace after
it; `none` models the raised `ValueError`. -/
def pyJsonLoads (s : String) : Option JValue :=
  match parseV (s.data.length + 1) s.data with
  | some (v, r) => if skipWs r = [] then some v else none
  | none => none

/-! ## Cryptographic primitives (library contracts)

`Crypto.Cipher.AES` in GCM mode and `hashlib.sha256` are third-party
code, modelled by their functional contracts as described in the header:
a per-`(key, nonce)` keystream XOR-mask (CTR shape) plus an
authentication tag that is injective in `(key, nonce, ciphertext)`, and
an injective digest function.  `listEnc` is the injective byte-list
encoding both stand-ins are built from.
-/

/-- Injective encoding of a byte list into a natural number (base
`2 ^ 22` with an offset so that `[]`, `[0]`, `[0, 0]`, … differ).
Injective for entries below `2 ^ 22 - 1`, which covers every list the
module produces: raw bytes are `< 256` and code points XOR-masked by a
byte are `< 2 ^ 21`. -/
def listEnc : List Nat → Nat
  | [] => 0
  | b :: t => (b + 1) + 2 ^ 22 * listEnc t

/-- Keystream byte `i` of AES-256-CTR under `(key, nonce)` — a concrete
deterministic stand-in; no claim depends on its values. -/
def keystream (key nonce : List Nat) (i : Nat) : Nat :=
  (listEnc key + 3 * listEnc nonce + 7 * i) % 256

/-- XOR a byte list with the keystream starting at position `i`: both the
encryption and the decryption direction of AES-GCM's CTR layer. -/
def xorStream (key nonce : List Nat) : Nat → List Nat → List Nat
  | _, [] => []
  | i, b :: t => (b ^^^ keystream key nonce i) :: xorStream key nonce (i + 1) t

/-- GCM authentication tag over `(key, nonce, ciphertext)`.  The
library's contract — a mismatching tag makes `decrypt_and_verify` raise —
is modelled by making the tag injective in its inputs (for byte lists in
the range `listEnc` is injective on). -/
def gcmTag (key nonce ct : List Nat) : Nat :=
  Nat.pair (listEnc key) (Nat.pair (listEnc nonce) (listEnc ct))

/-- Python `s.encode("utf-8")`: the injective serialization of a string into
its code points (see header). -/
def utf8Encode (s : String) : List Nat := s.data.map Char.toNat

/-- Python `bytes.decode("utf-8")`: partial inverse of `utf8Encode`; `none`
models the raised `UnicodeDecodeError`. -/
def utf8Decode (l : List Nat) : Option String :=
  if ∀ b ∈ l, Nat.isValidChar b then some (String.mk (l.map Char.ofNat)) else none

/-- Lower-case hexadecimal digit table. -/
def hexDigit : Nat → Char
  | 0 => '0' | 1 => '1' | 2 => '2' | 3 => '3' | 4 => '4' | 5 => '5'
  | 6 => '6' | 7 => '7' | 8 => '8' | 9 => '9' | 10 => 'a' | 11 => 'b'
  | 12 => 'c' | 13 => 'd' | 14 => 'e' | _ => 'f'

/-- Python `bytes.hex()`: two lowercase hex digits per byte. -/
def bytesHex (l : List Nat) : String :=
  String.mk (l.foldr (fun b acc => hexDigit (b / 16 % 16) :: hexDigit (b % 16) :: acc) [])

/-- Python `hashlib.sha256(…).hexdigest()`: a deterministic, collision-free
digest of the input string (see header).  The stand-in renders the
injective `listEnc` encoding of the string's code points in decimal. -/
def sha256hex (s : String) : String :=
  String.mk (natDec (listEnc (s.data.map Char.toNat)))

/-! ## The module -/

/-- One entry of `self.security_log`, as built by `_log_security_event`. -/
structure LogEntry where
  timestamp : String
  event_type : String
  details : String
  security_module : String
deriving DecidableEq

/-- The mutable state of a `QuantumSecurityModule` instance:
`self.quantum_key` (the 32 random bytes `_generate_quantum_key` drew,
here the entropy parameter of the constructor) and `self.security_log`. -/
structure QSM where
  quantum_key : List Nat
  security_log : List LogEntry
deriving DecidableEq

/-- Python `datetime.utcnow().isoformat()` — an abstract rendering of the
current time; its format is irrelevant to every claim, only that it is a
function of `now`. -/
def isoTimestamp (now : Nat) : String := String.mk (natDec now)

/-- The last-100 suffix of a list (`l[-100:]` when over capacity; the
whole list otherwise — `List.drop` of a truncated-subtraction index does
both at once). -/
def last100 (l : List LogEntry) : List LogEntry := l.drop (l.length - 100)

/-- Method `_log_security_event`: append an entry, then keep only the last 100
entries if the log exceeds 100. -/
def logSecurityEvent (now : Nat) (st : QSM) (event_type details : String) : QSM :=
  let log := st.security_log ++
    [⟨isoTimestamp now, event_type, details, "quantum_advanced"⟩]
  { st with security_log := if log.length > 100 then log.drop (log.length - 100) else log }

/-- The text-encoded envelope `encrypt_data` returns (base64 elided, so
`encrypted_data`/`nonce` are byte lists and `auth_tag` the tag value). -/
structure Envelope where
  encrypted_data : List Nat
  nonce : List Nat
  auth_tag : Nat
  timestamp : String
  encryption_method : String
deriving DecidableEq

/-- Serialization step of `encrypt_data`: dicts via `json.dumps`,
strings unchanged.  (`pint` has no `.encode`; callers handle it.) -/
def encSerialize : PyData → Option String
  | .pdict d => some (pyJsonDumps (.jobj d))
  | .pstr s => some s
  | .pint _ => none

/-- Modelled text of the `AttributeError` raised by `data.encode` when
`data` is an int (exception texts are stand-ins, see header). -/
def encodeAttrErr : String := "int object has no attribute encode"

/-- Modelled text of the `ValueError` raised by `decrypt_and_verify` on
tag mismatch. -/
def macCheckErr : String := "MAC check failed"

/-- Modelled text of the `UnicodeDecodeError` raised by
`bytes.decode("utf-8")`. -/
def unicodeErr : String := "utf-8 codec cant decode"

/-- Method `encrypt_data(data)`: serialize, encrypt under a fresh nonce (the
`nonce` entropy parameter), tag, and wrap; log success, or catch the
failure, log it, and return `None`. -/
def encrypt_data (now : Nat) (nonce : List Nat) (st : QSM) (data : PyData) :
    Option Envelope × QSM :=
  match encSerialize data with
  | none => (none, logSecurityEvent now st "encryption_error" encodeAttrErr)
  | some s =>
    let ct := xorStream st.quantum_key nonce 0 (utf8Encode s)
    let env : Envelope :=
      { encrypted_data := ct
        nonce := nonce
        auth_tag := gcmTag st.quantum_key nonce ct
        timestamp := isoTimestamp now
        encryption_method := "AES-256-GCM-Quantum" }
    (some env, logSecurityEvent now st "data_encrypted" "success")

/-- Method `decrypt_data(encrypted_package)`: verify the tag and decrypt; on
success decode the bytes and try `json.loads`, falling back to the raw
text; on any failure log the error and return `None`. -/
def decrypt_data (now : Nat) (st : QSM) (pkg : Envelope) : Option JValue × QSM :=
  if pkg.auth_tag = gcmTag st.quantum_key pkg.nonce pkg.encrypted_data then
    match utf8Decode (xorStream st.quantum_key pkg.nonce 0 pkg.encrypted_data) with
    | none => (none, logSecurityEvent now st "decryption_error" unicodeErr)
    | some s =>
      let result := match pyJsonLoads s with
        | some v => v
        | none => .jstr s
      (some result, logSecurityEvent now st "data_decrypted" "success")
  else (none, logSecurityEvent now st "decryption_error" macCheckErr)

/-- Serialization step of `generate_secure_hash`: dicts via
`json.dumps(…, sort_keys=True)`, anything else via `f"{data}"`. -/
def hashSerialize : PyData → String
  | .pdict d => pyJsonDumpsSorted (.jobj d)
  | .pstr s => s
  | .pint i => String.mk (intDec i)

/-- Method `generate_secure_hash(data)`: digest of serialized payload ‖
`str(int(time.time()))` ‖ `self.quantum_key.hex()`, returned as the
`{hash, timestamp, algorithm}` dict.  Reads the state, never writes it. -/
def generate_secure_hash (now : Nat) (st : QSM) (data : PyData) :
    List (String × String) × QSM :=
  let timestamp := String.mk (natDec now)
  let combined := hashSerialize data ++ timestamp ++ bytesHex st.quantum_key
  ([("hash", sha256hex combined), ("timestamp", timestamp),
    ("algorithm", "SHA-256-Quantum-Enhanced")], st)

/-- Method `verify_integrity(data, hash_info)`: recompute the digest at the
*current* time and compare with `hash_info['hash']`.  The lookup is not
guarded: a tag without a `"hash"` key raises `KeyError`, modelled by
`none`. -/
def verify_integrity (now : Nat) (st : QSM) (data : PyData)
    (hash_info : List (String × String)) : Option Bool × QSM :=
  match ((generate_secure_hash now st data).1.lookup "hash",
         hash_info.lookup "hash") with
  | (some c, some h) => (some (c == h), st)
  | _ => (none, st)

/-- The fixed denylist of `scan_for_threats`. -/
def suspicious_patterns : List String :=
  ["DROP TABLE", "DELETE FROM", "<script>", "javascript:",
   "eval(", "exec(", "import os", "subprocess"]

/-- Python `needle in haystack` prefix test on character lists. -/
def startsList : List Char → List Char → Bool
  | [], _ => true
  | c :: cs, d :: ds => c = d && startsList cs ds
  | _ :: _, [] => false

/-- Python `in`: substring containment. -/
def containsList (needle : List Char) : List Char → Bool
  | [] => needle.isEmpty
  | c :: t => startsList needle (c :: t) || containsList needle t

/-- Python `str.lower()` on one character (ASCII case mapping; the denylist and
the claims are ASCII-only, so Python's full Unicode case mapping is not
modelled). -/
def lowerChar (c : Char) : Char :=
  if 65 ≤ c.toNat ∧ c.toNat ≤ 90 then Char.ofNat (c.toNat + 32) else c

/-- Python `pattern.lower() in data_str.lower()`. -/
def matchesPattern (data_str pattern : String) : Bool :=
  containsList (pattern.data.map lowerChar) (data_str.data.map lowerChar)

/-- Serialization step of `scan_for_threats`: dicts via `json.dumps`,
anything else via `str(data)`. -/
def scanSerialize : PyData → String
  | .pdict d => pyJsonDumps (.jobj d)
  | .pstr s => s
  | .pint i => String.mk (intDec i)

/-- One detected threat, as appended to `threats_detected`. -/
structure Threat where
  type : String
  pattern : String
  severity : String
  timestamp : String
deriving DecidableEq

/-- The pattern loop of `scan_for_threats`: one entry per matching
denylist pattern, in denylist order. -/
def scanLoop (now : Nat) (data_str : String) : List String → List Threat
  | [] => []
  | p :: ps =>
    if matchesPattern data_str p then
      ⟨"injection_attempt", p, "high", isoTimestamp now⟩ :: scanLoop now data_str ps
    else scanLoop now data_str ps

/-- The report `scan_for_threats` returns. -/
structure ThreatReport where
  scan_complete : Bool
  threats_detected : List Threat
  threat_count : Nat
  scan_timestamp : String
  security_level : String
deriving DecidableEq

/-- Method `scan_for_threats(data)`: serialize, match the denylist
case-insensitively, log the match count, and report. -/
def scan_for_threats (now : Nat) (st : QSM) (data : PyData) : ThreatReport × QSM :=
  let data_str := scanSerialize data
  let threats := scanLoop now data_str suspicious_patterns
  ({ scan_complete := true
     threats_detected := threats
     threat_count := threats.length
     scan_timestamp := isoTimestamp now
     security_level := if threats.length > 0 then "high" else "secure" },
   logSecurityEvent now st "threat_scan"
     ("threats_found: " ++ String.mk (natDec threats.length)))

/-- The snapshot `get_security_status` returns. -/
structure SecurityStatus where
  module_status : String
  quantum_encryption : String
  threat_detection : String
  security_events : Nat
  last_event : Option LogEntry
  encryption_strength : String
deriving DecidableEq

/-- Method `get_security_status()`: a pure read of the state (the constant
owner/contact/copyright strings of the source dict are omitted as
claim-irrelevant). -/
def get_security_status (st : QSM) : SecurityStatus :=
  { module_status := "operational"
    quantum_encryption := "active"
    threat_detection := "monitoring"
    security_events := st.security_log.length
    last_event := st.security_log.getLast?
    encryption_strength := "AES-256-Quantum" }

/-! ## Lemmas: decimal rendering and low-level parsing -/

theorem digitChar_isDigit {d : Nat} (h : d < 10) : isDigitChar (digitChar d) = true := by
  interval_cases d <;> decide

theorem digitChar_toNat {d : Nat} (h : d < 10) : (digitChar d).toNat - 48 = d := by
  interval_cases d <;> decide

theorem natDecAux_all_digits : ∀ (f n : Nat), ∀ c ∈ natDecAux f n, isDigitChar c = true := by
  intro f
  induction f with
  | zero => intro n c hc; simp [natDecAux] at hc
  | succ g ihf =>
    intro n c hc
    unfold natDecAux at hc
    split at hc
    · simp at hc
    · rcases List.mem_append.mp hc with h | h
      · exact ihf _ c h
      · simp at h
        subst h
        exact digitChar_isDigit (Nat.mod_lt _ (by norm_num))

theorem natDec_all_digits (n : Nat) : ∀ c ∈ natDec n, isDigitChar c = true := by
  intro c hc
  unfold natDec at hc
  split at hc
  · simp at hc; subst hc; decide
  · exact natDecAux_all_digits n n c hc

theorem natDec_ne_nil (n : Nat) : natDec n ≠ [] := by
  unfold natDec
  split
  · simp
  · rename_i hn
    cases n with
    | zero => exact absurd rfl hn
    | succ m =>
      unfold natDecAux
      rw [if_neg hn]
      simp

theorem digitsToNat_append_single (ds : List Char) (c : Char) :
    digitsToNat (ds ++ [c]) = digitsToNat ds * 10 + (c.toNat - 48) := by
  simp [digitsToNat, List.foldl_append]

theorem natDecAux_val : ∀ f n : Nat, n ≤ f → digitsToNat (natDecAux f n) = n := by
  intro f
  induction f with
  | zero =>
    intro n hn
    interval_cases n
    rfl
  | succ g ihf =>
    intro n hn
    unfold natDecAux
    by_cases h0 : n = 0
    · simp [h0, digitsToNat]
    · rw [if_neg h0, digitsToNat_append_single,
        ihf (n / 10) (by omega), digitChar_toNat (Nat.mod_lt _ (by norm_num))]
      omega

theorem digitsToNat_natDec (n : Nat) : digitsToNat (natDec n) = n := by
  unfold natDec
  split
  · rename_i h; subst h; decide
  · exact natDecAux_val n n (Nat.le_refl _)

/-- Heads of the input the parser can treat as a digit-run boundary. -/
def noDigitHead : List Char → Prop
  | [] => True
  | c :: _ => isDigitChar c = false

theorem takeDigits_spec {ds rest : List Char} (hds : ∀ c ∈ ds, isDigitChar c = true)
    (hrest : noDigitHead rest) : takeDigits (ds ++ rest) = (ds, rest) := by
  induction ds with
  | nil =>
    cases rest with
    | nil => rfl
    | cons c t => simp [takeDigits, noDigitHead] at hrest ⊢; simp [hrest]
  | cons d t ih =>
    have hd : isDigitChar d = true := hds d (by simp)
    simp [takeDigits, hd, ih (fun c hc => hds c (by simp [hc]))]

theorem dropLit_spec (es rest : List Char) : dropLit es (es ++ rest) = some rest := by
  induction es with
  | nil => rfl
  | cons e t ih => simp [dropLit, ih]

theorem parseStringBody_quote (t : List Char) : parseStringBody ('"' :: t) = some ([], t) := by
  conv_lhs => rw [parseStringBody.eq_def]
  simp

theorem parseStringBody_escaped {e : Char} (t2 : List Char) (he : e = '"' ∨ e = '\\') :
    parseStringBody ('\\' :: e :: t2) =
      (parseStringBody t2).map (fun p => (e :: p.1, p.2)) := by
  conv_lhs => rw [parseStringBody.eq_def]
  simp [he]

theorem parseStringBody_other {c : Char} (t : List Char) (h1 : c ≠ '\\') (h2 : c ≠ '"') :
    parseStringBody (c :: t) = (parseStringBody t).map (fun p => (c :: p.1, p.2)) := by
  conv_lhs => rw [parseStringBody.eq_def]
  simp only []
  rw [if_neg h1, if_neg h2]

theorem parseStringBody_esc (l : List Char) :
    ∀ rest, parseStringBody (escList l ++ '"' :: rest) = some (l, rest) := by
  induction l with
  | nil => intro rest; exact parseStringBody_quote rest
  | cons c t ih =>
    intro rest
    by_cases hc : c = '"' ∨ c = '\\'
    · simp only [escList, if_pos hc, List.cons_append]
      rw [parseStringBody_escaped _ hc]
      simp [ih]
    · push_neg at hc
      simp only [escList, if_neg (not_or.mpr hc), List.cons_append]
      rw [parseStringBody_other _ hc.2 hc.1]
      simp [ih]

theorem skipWs_not_ws {c : Char} (t : List Char) (h : isWsChar c = false) :
    skipWs (c :: t) = c :: t := by
  simp [skipWs, h]

theorem skipWs_space (t : List Char) : skipWs (' ' :: t) = skipWs t := by
  simp [skipWs, isWsChar]

theorem skipWs_idem (l : List Char) : skipWs (skipWs l) = skipWs l := by
  induction l with
  | nil => rfl
  | cons c t ih =>
    by_cases h : isWsChar c = true
    · simp [skipWs, h, ih]
    · simp only [Bool.not_eq_true] at h
      rw [skipWs_not_ws t h, skipWs_not_ws t h]

theorem string_mk_data (s : String) : String.mk s.data = s := rfl

theorem digit_ne_char {c : Char} (h : isDigitChar c = true) :
    ∀ d : Char, d.toNat < 48 ∨ 57 < d.toNat → c ≠ d := by
  intro d hd he
  have hb : 48 ≤ c.toNat ∧ c.toNat ≤ 57 := by simpa [isDigitChar] using h
  rw [he] at hb
  omega

theorem digit_not_ws {c : Char} (h : isDigitChar c = true) : isWsChar c = false := by
  have h1 := digit_ne_char h ' ' (by decide)
  have h2 := digit_ne_char h '\t' (by decide)
  have h3 := digit_ne_char h '\n' (by decide)
  have h4 := digit_ne_char h '\r' (by decide)
  simp [isWsChar, h1, h2, h3, h4]

theorem dump_head (v : JValue) :
    ∃ c t, dumpJ v = c :: t ∧ isWsChar c = false ∧ c ≠ ']' ∧ c ≠ '}' := by
  cases v with
  | jnull => exact ⟨'n', _, rfl, by decide, by decide, by decide⟩
  | jbool b =>
    cases b
    · exact ⟨'f', ['a', 'l', 's', 'e'], rfl, by decide, by decide, by decide⟩
    · exact ⟨'t', ['r', 'u', 'e'], rfl, by decide, by decide, by decide⟩
  | jnum i =>
    by_cases hi : i < 0
    · refine ⟨'-', natDec i.natAbs, ?_, by decide, by decide, by decide⟩
      simp [dumpJ, intDec, hi]
    · cases hd : natDec i.toNat with
      | nil => exact absurd hd (natDec_ne_nil _)
      | cons c t =>
        have hc : isDigitChar c = true :=
          natDec_all_digits i.toNat c (by rw [hd]; exact List.mem_cons_self _ _)
        refine ⟨c, t, ?_, digit_not_ws hc,
          digit_ne_char hc ']' (by decide), digit_ne_char hc '}' (by decide)⟩
        simp [dumpJ, intDec, hi, hd]
  | jstr s => exact ⟨'"', _, rfl, by decide, by decide, by decide⟩
  | jarr xs =>
    cases xs with
    | nil => exact ⟨'[', _, rfl, by decide, by decide, by decide⟩
    | cons x xs => exact ⟨'[', _, rfl, by decide, by decide, by decide⟩
  | jobj kvs =>
    cases kvs with
    | nil => exact ⟨'{', _, rfl, by decide, by decide, by decide⟩
    | cons kv kvs => exact ⟨'{', _, rfl, by decide, by decide, by decide⟩

theorem skipWs_dump (v : JValue) (rest : List Char) :
    skipWs (dumpJ v ++ rest) = dumpJ v ++ rest := by
  obtain ⟨c, t, he, hws, _, _⟩ := dump_head v
  rw [he, List.cons_append, skipWs_not_ws _ hws]

theorem noDigitHead_dumpTail (xs : List JValue) (rest : List Char) :
    noDigitHead (dumpTail xs ++ ']' :: rest) := by
  cases xs with
  | nil =>
    simp only [dumpTail, List.nil_append]
    show isDigitChar ']' = false
    decide
  | cons y ys =>
    simp only [dumpTail, List.cons_append]
    show isDigitChar ',' = false
    decide

theorem noDigitHead_dumpKVTail (kvs : List (String × JValue)) (rest : List Char) :
    noDigitHead (dumpKVTail kvs ++ '}' :: rest) := by
  cases kvs with
  | nil =>
    simp only [dumpKVTail, List.nil_append]
    show isDigitChar '}' = false
    decide
  | cons kv kvs =>
    simp only [dumpKVTail, List.cons_append]
    show isDigitChar ',' = false
    decide

theorem jsize_pos (v : JValue) : 1 ≤ jsize v := by
  cases v <;> simp [jsize]

theorem skipWs_dumpKV (kv : String × JValue) (r : List Char) :
    skipWs (dumpKV kv ++ r) = dumpKV kv ++ r := by
  obtain ⟨k, v⟩ := kv
  simp only [dumpKV, List.cons_append]
  exact skipWs_not_ws _ (by decide)

/-- The parser inverts the printer: with enough fuel, `parseV` consumes
exactly `dumpJ v` from the front of the input and returns `v` (and
likewise for the element/member loops). -/
theorem parse_dump : ∀ f : Nat,
    (∀ (v : JValue) (l rest : List Char), jsize v < f → noDigitHead rest →
      skipWs l = dumpJ v ++ rest → parseV f l = some (v, rest)) ∧
    (∀ (x : JValue) (xs : List JValue) (rest l : List Char),
      jsize x + 1 + jsizeL xs < f →
      skipWs l = dumpJ x ++ (dumpTail xs ++ ']' :: rest) →
      parseItems f l = some (x :: xs, rest)) ∧
    (∀ (k : String) (v : JValue) (kvs : List (String × JValue)) (rest l : List Char),
      jsize v + 1 + jsizeM kvs < f →
      skipWs l = dumpKV (k, v) ++ (dumpKVTail kvs ++ '}' :: rest) →
      parseMembers f l = some ((k, v) :: kvs, rest)) := by
  intro f
  induction f using Nat.strong_induction_on with
  | _ f ih =>
    refine ⟨?_, ?_, ?_⟩
    · intro v l rest hsz hrest hl
      have h1 := jsize_pos v
      cases f with
      | zero => omega
      | succ g =>
        cases v with
        | jnull =>
          rw [parseV.eq_def]
          simp only [hl, dumpJ, List.cons_append]
          simp [dropLit]
        | jbool b =>
          rw [parseV.eq_def]
          cases b <;>
            · simp only [hl, dumpJ, List.cons_append]
              simp [dropLit]
        | jstr s =>
          rw [parseV.eq_def]
          simp only [hl, dumpJ, List.cons_append, List.append_assoc, List.singleton_append]
          simp [parseStringBody_esc, string_mk_data]
        | jnum i =>
          rw [parseV.eq_def]
          by_cases hi : i < 0
          · simp only [dumpJ, intDec, if_pos hi, List.cons_append] at hl
            cases hd : natDec i.natAbs with
            | nil => exact absurd hd (natDec_ne_nil _)
            | cons c t =>
              have htd : takeDigits (natDec i.natAbs ++ rest) = (natDec i.natAbs, rest) :=
                takeDigits_spec (natDec_all_digits _) hrest
              rw [hd] at hl htd
              have hdg : digitsToNat (c :: t) = i.natAbs := by rw [← hd, digitsToNat_natDec]
              have hni : (-(i.natAbs : Int)) = i := by omega
              simp only [List.cons_append] at htd
              simp only [hl, List.cons_append]
              simp [htd, hdg, hni]
              rw [abs_of_neg hi, neg_neg]
          · simp only [dumpJ, intDec, if_neg hi] at hl
            cases hd : natDec i.toNat with
            | nil => exact absurd hd (natDec_ne_nil _)
            | cons c t =>
              have hc : isDigitChar c = true :=
                natDec_all_digits i.toNat c (by rw [hd]; exact List.mem_cons_self _ _)
              have htd : takeDigits (c :: (t ++ rest)) = (c :: t, rest) := by
                have h0 : c :: (t ++ rest) = (c :: t) ++ rest := rfl
                rw [h0, ← hd, takeDigits_spec (natDec_all_digits _) hrest, hd]
              have hdg : digitsToNat (c :: t) = i.toNat := by rw [← hd, digitsToNat_natDec]
              have hti : ((i.toNat : Int)) = i := by omega
              rw [hd] at hl
              simp only [hl, List.cons_append]
              rw [if_neg (digit_ne_char hc '"' (by decide)),
                if_neg (digit_ne_char hc '[' (by decide)),
                if_neg (digit_ne_char hc '{' (by decide)),
                if_neg (digit_ne_char hc 't' (by decide)),
                if_neg (digit_ne_char hc 'f' (by decide)),
                if_neg (digit_ne_char hc 'n' (by decide)),
                if_neg (digit_ne_char hc '-' (by decide)),
                if_pos hc]
              rw [htd]
              simp [hdg, hti]
        | jarr xs =>
          cases xs with
          | nil =>
            rw [parseV.eq_def]
            simp only [hl, dumpJ, List.cons_append]
            have hbr : skipWs (']' :: rest) = ']' :: rest := skipWs_not_ws _ (by decide)
            simp [hbr]
          | cons x xs =>
            rw [parseV.eq_def]
            simp only [hl, dumpJ, List.cons_append, List.append_assoc, List.nil_append]
            rw [if_neg (show ¬ ('[' : Char) = '"' by decide)]
            simp only [ite_true]
            have hsk : skipWs (dumpJ x ++ (dumpTail xs ++ ']' :: rest)) =
                dumpJ x ++ (dumpTail xs ++ ']' :: rest) := skipWs_dump x _
            obtain ⟨c0, t0, hd0, hws0, hbr0, hbc0⟩ := dump_head x
            rw [hsk, hd0, List.cons_append]
            have hszl : jsize x + 1 + jsizeL xs < g := by
              simp only [jsize, jsizeL] at hsz; omega
            have hitems := (ih g (by omega)).2.1 x xs rest
              (dumpJ x ++ (dumpTail xs ++ ']' :: rest)) hszl (skipWs_dump x _)
            split
            · rename_i r heq
              injection heq with hh _
              exact absurd hh hbr0
            · rw [← List.cons_append, ← hd0, hitems]
              rfl
        | jobj kvs =>
          cases kvs with
          | nil =>
            rw [parseV.eq_def]
            simp only [hl, dumpJ, List.cons_append]
            have hbr : skipWs ('}' :: rest) = '}' :: rest := skipWs_not_ws _ (by decide)
            simp [hbr]
          | cons kv kvs =>
            obtain ⟨k, v⟩ := kv
            rw [parseV.eq_def]
            simp only [hl, dumpJ, List.cons_append, List.append_assoc, List.nil_append]
            rw [if_neg (show ¬ ('{' : Char) = '"' by decide),
              if_neg (show ¬ ('{' : Char) = '[' by decide)]
            simp only [ite_true]
            have hsk : skipWs (dumpKV (k, v) ++ (dumpKVTail kvs ++ '}' :: rest)) =
                dumpKV (k, v) ++ (dumpKVTail kvs ++ '}' :: rest) := skipWs_dumpKV _ _
            have hszm : jsize v + 1 + jsizeM kvs < g := by
              simp only [jsize, jsizeM] at hsz; omega
            have hmem := (ih g (by omega)).2.2 k v kvs rest
              (dumpKV (k, v) ++ (dumpKVTail kvs ++ '}' :: rest)) hszm (skipWs_dumpKV _ _)
            rw [hsk]
            simp only [dumpKV, List.cons_append]
            split
            · rename_i r heq
              injection heq with hh _
              exact absurd hh (by decide)
            · rw [show ('"' :: (escList k.data ++ '"' :: ':' :: ' ' :: dumpJ v ++
                  (dumpKVTail kvs ++ '}' :: rest)) : List Char) =
                  dumpKV (k, v) ++ (dumpKVTail kvs ++ '}' :: rest) by
                    simp [dumpKV, List.cons_append, List.append_assoc]]
              rw [hmem]
              rfl
    · intro x xs rest l hsz hl
      cases f with
      | zero => omega
      | succ g =>
        have hv := (ih g (by omega)).1 x l (dumpTail xs ++ ']' :: rest)
          (by omega) (noDigitHead_dumpTail xs rest) hl
        cases xs with
        | nil =>
          rw [parseItems.eq_def]
          simp only [dumpTail, List.nil_append] at hv
          simp only [hv, Option.some_bind]
          rw [skipWs_not_ws _ (by decide)]
          rfl
        | cons y ys =>
          rw [parseItems.eq_def]
          simp only [dumpTail, List.cons_append, List.append_assoc] at hv
          simp only [hv, Option.some_bind]
          rw [skipWs_not_ws _ (by decide)]
          have hszl : jsize y + 1 + jsizeL ys < g := by
            simp only [jsizeL] at hsz
            have := jsize_pos x
            omega
          have hin : parseItems g (skipWs (' ' :: (dumpJ y ++ (dumpTail ys ++ ']' :: rest)))) =
              some (y :: ys, rest) := by
            apply (ih g (by omega)).2.1 y ys rest _ hszl
            rw [skipWs_idem, skipWs_space, skipWs_dump]
          simp only [hin]
          rfl
    · intro k v kvs rest l hsz hl
      cases f with
      | zero => omega
      | succ g =>
        rw [parseMembers.eq_def]
        simp only [dumpKV, List.cons_append, List.append_assoc] at hl
        simp only [hl, ite_true]
        rw [parseStringBody_esc]
        simp only [Option.some_bind]
        rw [skipWs_not_ws _ (by decide)]
        cases kvs with
        | nil =>
          have hv : parseV g (' ' :: (dumpJ v ++ '}' :: rest)) = some (v, '}' :: rest) := by
            apply (ih g (by omega)).1 v _ _ (by omega)
              (show noDigitHead ('}' :: rest) from by show isDigitChar '}' = false; decide)
            rw [skipWs_space, skipWs_dump]
          simp only [dumpKVTail, List.nil_append]
          simp only [hv, Option.some_bind]
          rw [skipWs_not_ws _ (by decide)]
          simp [string_mk_data]
        | cons m ms =>
          have hv : parseV g (' ' :: (dumpJ v ++ (dumpKVTail (m :: ms) ++ '}' :: rest))) =
              some (v, dumpKVTail (m :: ms) ++ '}' :: rest) := by
            apply (ih g (by omega)).1 v _ _ (by omega) (noDigitHead_dumpKVTail (m :: ms) rest)
            rw [skipWs_space, skipWs_dump]
          simp only [hv, Option.some_bind]
          simp only [dumpKVTail, List.cons_append, List.append_assoc]
          rw [skipWs_not_ws _ (by decide)]
          obtain ⟨k2, v2⟩ := m
          have hszm : jsize v2 + 1 + jsizeM ms < g := by
            simp only [jsizeM] at hsz
            have := jsize_pos v
            omega
          have hm : parseMembers g (' ' :: (dumpKV (k2, v2) ++ (dumpKVTail ms ++ '}' :: rest))) =
              some ((k2, v2) :: ms, rest) := by
            apply (ih g (by omega)).2.2 k2 v2 ms rest _ hszm
            rw [skipWs_space, skipWs_dumpKV]
          simp only [hm]
          simp [string_mk_data]

theorem jsize_le_dump : ∀ n : Nat,
    (∀ v : JValue, sizeOf v ≤ n → jsize v ≤ (dumpJ v).length) ∧
    (∀ xs : List JValue, sizeOf xs ≤ n → jsizeL xs ≤ (dumpTail xs).length) ∧
    (∀ kvs : List (String × JValue), sizeOf kvs ≤ n → jsizeM kvs ≤ (dumpKVTail kvs).length) := by
  intro n
  induction n using Nat.strong_induction_on with
  | _ n ih =>
    refine ⟨?_, ?_, ?_⟩
    · intro v hn
      cases v with
      | jnull => simp [jsize, dumpJ]
      | jbool b => cases b <;> simp [jsize, dumpJ]
      | jnum i =>
        have h1 : 1 ≤ (intDec i).length := by
          unfold intDec
          split
          · simp
          · have := natDec_ne_nil i.toNat
            cases hd : natDec i.toNat with
            | nil => exact absurd hd this
            | cons c t => simp [hd]
        simpa [jsize, dumpJ] using h1
      | jstr s => simp [jsize, dumpJ]
      | jarr xs =>
        cases xs with
        | nil => simp [jsize, jsizeL, dumpJ]
        | cons x xs =>
          have hx : sizeOf x < n := by simp_arith at hn; omega
          have hxs : sizeOf xs < n := by simp_arith at hn; omega
          have h1 := (ih _ hx).1 x (Nat.le_refl _)
          have h2 := (ih _ hxs).2.1 xs (Nat.le_refl _)
          simp only [jsize, jsizeL, dumpJ, List.length_cons, List.length_append,
            List.length_singleton]
          omega
      | jobj kvs =>
        cases kvs with
        | nil => simp [jsize, jsizeM, dumpJ]
        | cons kv kvs =>
          obtain ⟨k, v⟩ := kv
          have hv : sizeOf v < n := by simp_arith at hn; omega
          have hkvs : sizeOf kvs < n := by simp_arith at hn; omega
          have h1 := (ih _ hv).1 v (Nat.le_refl _)
          have h2 := (ih _ hkvs).2.2 kvs (Nat.le_refl _)
          simp only [jsize, jsizeM, dumpJ, dumpKV, List.length_cons, List.length_append,
            List.length_singleton]
          omega
    · intro xs hn
      cases xs with
      | nil => simp [jsizeL, dumpTail]
      | cons x xs =>
        have hx : sizeOf x < n := by simp_arith at hn; omega
        have hxs : sizeOf xs < n := by simp_arith at hn; omega
        have h1 := (ih _ hx).1 x (Nat.le_refl _)
        have h2 := (ih _ hxs).2.1 xs (Nat.le_refl _)
        simp only [jsizeL, dumpTail, List.length_cons, List.length_append]
        omega
    · intro kvs hn
      cases kvs with
      | nil => simp [jsizeM, dumpKVTail]
      | cons kv kvs =>
        obtain ⟨k, v⟩ := kv
        have hv : sizeOf v < n := by simp_arith at hn; omega
        have hkvs : sizeOf kvs < n := by simp_arith at hn; omega
        have h1 := (ih _ hv).1 v (Nat.le_refl _)
        have h2 := (ih _ hkvs).2.2 kvs (Nat.le_refl _)
        simp only [jsizeM, dumpKVTail, dumpKV, List.length_cons, List.length_append]
        omega

/-- Parsing inverts printing: `json.loads` of `json.dumps` returns the value. -/
theorem pyJsonLoads_dumps (v : JValue) : pyJsonLoads (pyJsonDumps v) = some v := by
  unfold pyJsonLoads pyJsonDumps
  have hdata : (String.mk (dumpJ v)).data = dumpJ v := rfl
  rw [hdata]
  have hsz : jsize v < (dumpJ v).length + 1 :=
    Nat.lt_succ_of_le ((jsize_le_dump (sizeOf v)).1 v (Nat.le_refl _))
  have hp := (parse_dump ((dumpJ v).length + 1)).1 v (dumpJ v) [] hsz trivial
    (by simpa using skipWs_dump v [])
  rw [hp]
  simp [skipWs]

/-! ## Lemmas: cryptographic stand-ins -/

theorem xorStream_involutive (key nonce : List Nat) :
    ∀ (i : Nat) (l : List Nat), xorStream key nonce i (xorStream key nonce i l) = l := by
  intro i l
  induction l generalizing i with
  | nil => rfl
  | cons b t ihl =>
    simp only [xorStream, ihl]
    rw [Nat.xor_assoc, Nat.xor_self, Nat.xor_zero]

theorem utf8_roundtrip (s : String) : utf8Decode (utf8Encode s) = some s := by
  unfold utf8Decode utf8Encode
  rw [if_pos]
  · rw [List.map_map]
    simp only [Function.comp_def, Char.ofNat_toNat, List.map_id']
  · intro b hb
    obtain ⟨c, _, rfl⟩ := List.mem_map.mp hb
    exact c.valid

theorem listEnc_inj : ∀ a b : List Nat,
    (∀ x ∈ a, x < 2 ^ 22 - 1) → (∀ x ∈ b, x < 2 ^ 22 - 1) →
    listEnc a = listEnc b → a = b := by
  intro a
  induction a with
  | nil =>
    intro b _ hb he
    cases b with
    | nil => rfl
    | cons y t =>
      exfalso
      simp only [listEnc] at he
      have : y + 1 > 0 := Nat.succ_pos y
      omega
  | cons x t iha =>
    intro b ha hb he
    cases b with
    | nil =>
      exfalso
      simp only [listEnc] at he
      omega
    | cons y u =>
      simp only [listEnc] at he
      have hx : x < 2 ^ 22 - 1 := ha x (by simp)
      have hy : y < 2 ^ 22 - 1 := hb y (by simp)
      have hxy : x = y ∧ listEnc t = listEnc u := by
        constructor
        · have h1 := congrArg (· % 2 ^ 22) he
          simp only [Nat.add_mul_mod_self_left] at h1
          have e1 : (x + 1) % 2 ^ 22 = x + 1 := Nat.mod_eq_of_lt (by omega)
          have e2 : (y + 1) % 2 ^ 22 = y + 1 := Nat.mod_eq_of_lt (by omega)
          omega
        · have h1 := congrArg (· / 2 ^ 22) he
          simp only at h1
          rw [Nat.add_mul_div_left _ _ (by norm_num), Nat.add_mul_div_left _ _ (by norm_num),
            Nat.div_eq_of_lt (by omega), Nat.div_eq_of_lt (by omega)] at h1
          simpa using h1
      rw [hxy.1, iha u (fun z hz => ha z (by simp [hz])) (fun z hz => hb z (by simp [hz])) hxy.2]

theorem gcmTag_inj {k1 n1 c1 k2 n2 c2 : List Nat}
    (hk1 : ∀ x ∈ k1, x < 2 ^ 22 - 1) (hn1 : ∀ x ∈ n1, x < 2 ^ 22 - 1)
    (hc1 : ∀ x ∈ c1, x < 2 ^ 22 - 1)
    (hk2 : ∀ x ∈ k2, x < 2 ^ 22 - 1) (hn2 : ∀ x ∈ n2, x < 2 ^ 22 - 1)
    (hc2 : ∀ x ∈ c2, x < 2 ^ 22 - 1)
    (h : gcmTag k1 n1 c1 = gcmTag k2 n2 c2) : k1 = k2 ∧ n1 = n2 ∧ c1 = c2 := by
  unfold gcmTag at h
  have h1 := Nat.pair_eq_pair.mp h
  have h2 := Nat.pair_eq_pair.mp h1.2
  exact ⟨listEnc_inj _ _ hk1 hk2 h1.1, listEnc_inj _ _ hn1 hn2 h2.1,
    listEnc_inj _ _ hc1 hc2 h2.2⟩

/-- Code points are below `2 ^ 21`, so XOR-masking with a byte keeps every
ciphertext entry in the range where `listEnc` is injective. -/
theorem xorStream_lt (key nonce : List Nat) :
    ∀ (i : Nat) (l : List Nat), (∀ x ∈ l, x < 2 ^ 21) →
      ∀ x ∈ xorStream key nonce i l, x < 2 ^ 21 := by
  intro i l
  induction l generalizing i with
  | nil => intro _ x hx; simp [xorStream] at hx
  | cons b t ihl =>
    intro hl x hx
    simp only [xorStream, List.mem_cons] at hx
    rcases hx with hx | hx
    · subst hx
      apply Nat.xor_lt_two_pow (hl b (by simp))
      calc keystream key nonce i < 256 := Nat.mod_lt _ (by norm_num)
        _ < 2 ^ 21 := by norm_num
    · exact ihl (i + 1) (fun z hz => hl z (by simp [hz])) x hx

theorem utf8Encode_lt (s : String) : ∀ x ∈ utf8Encode s, x < 2 ^ 21 := by
  intro x hx
  obtain ⟨c, _, rfl⟩ := List.mem_map.mp hx
  have := c.valid
  unfold UInt32.isValidChar Nat.isValidChar at this
  have hv : c.toNat = c.val.toNat := rfl
  rw [hv]
  omega

/-! ## Lemmas: the event log -/

theorem logSecurityEvent_key (now : Nat) (st : QSM) (a b : String) :
    (logSecurityEvent now st a b).quantum_key = st.quantum_key := rfl

theorem logSecurityEvent_log (now : Nat) (st : QSM) (a b : String) :
    (logSecurityEvent now st a b).security_log =
      last100 (st.security_log ++ [⟨isoTimestamp now, a, b, "quantum_advanced"⟩]) := by
  unfold logSecurityEvent last100
  dsimp only
  split
  · rfl
  · rename_i hle
    simp only [Nat.not_lt] at hle
    rw [Nat.sub_eq_zero_of_le hle, List.drop_zero]

theorem last100_length (l : List LogEntry) : (last100 l).length ≤ 100 := by
  unfold last100
  rw [List.length_drop]
  omega

theorem last100_of_le {l : List LogEntry} (h : l.length ≤ 100) : last100 l = l := by
  unfold last100
  rw [Nat.sub_eq_zero_of_le h, List.drop_zero]

theorem last100_append_left (xs ys : List LogEntry) :
    last100 (last100 xs ++ ys) = last100 (xs ++ ys) := by
  unfold last100
  rw [show xs.drop (xs.length - 100) ++ ys = (xs ++ ys).drop (xs.length - 100) from
    (List.drop_append_of_le_length (by omega)).symm]
  rw [List.drop_drop]
  refine congrArg (fun n => (xs ++ ys).drop n) ?_
  simp only [List.length_drop, List.length_append]
  omega

/-- A sequence of `_log_security_event` calls (the logging effect of a
sequence of operations), at a common model time. -/
def runLog (now : Nat) (st : QSM) : List (String × String) → QSM
  | [] => st
  | e :: evs => runLog now (logSecurityEvent now st e.1 e.2) evs

/-- The entry `_log_security_event(ty, det)` appends. -/
def mkEntry (now : Nat) (e : String × String) : LogEntry :=
  ⟨isoTimestamp now, e.1, e.2, "quantum_advanced"⟩

theorem runLog_key (now : Nat) : ∀ (evs : List (String × String)) (st : QSM),
    (runLog now st evs).quantum_key = st.quantum_key := by
  intro evs
  induction evs with
  | nil => intro st; rfl
  | cons e evs ihe => intro st; rw [runLog, ihe, logSecurityEvent_key]

theorem runLog_log (now : Nat) : ∀ (evs : List (String × String)) (st : QSM),
    st.security_log.length ≤ 100 →
    (runLog now st evs).security_log = last100 (st.security_log ++ evs.map (mkEntry now)) := by
  intro evs
  induction evs with
  | nil =>
    intro st hst
    simp only [runLog, List.map_nil, List.append_nil]
    exact (last100_of_le hst).symm
  | cons e evs ihe =>
    intro st hst
    rw [runLog, ihe _ (by rw [logSecurityEvent_log]; exact last100_length _),
      logSecurityEvent_log, last100_append_left, List.append_assoc]
    rfl

/-! ## Lemmas: the operations -/

theorem encrypt_pstr (now : Nat) (nonce : List Nat) (st : QSM) (s : String) :
    encrypt_data now nonce st (.pstr s) =
      (some { encrypted_data := xorStream st.quantum_key nonce 0 (utf8Encode s)
              nonce := nonce
              auth_tag := gcmTag st.quantum_key nonce
                (xorStream st.quantum_key nonce 0 (utf8Encode s))
              timestamp := isoTimestamp now
              encryption_method := "AES-256-GCM-Quantum" },
       logSecurityEvent now st "data_encrypted" "success") := rfl

theorem encrypt_pdict (now : Nat) (nonce : List Nat) (st : QSM)
    (d : List (String × JValue)) :
    encrypt_data now nonce st (.pdict d) =
      (some { encrypted_data := xorStream st.quantum_key nonce 0
                (utf8Encode (pyJsonDumps (.jobj d)))
              nonce := nonce
              auth_tag := gcmTag st.quantum_key nonce
                (xorStream st.quantum_key nonce 0 (utf8Encode (pyJsonDumps (.jobj d))))
              timestamp := isoTimestamp now
              encryption_method := "AES-256-GCM-Quantum" },
       logSecurityEvent now st "data_encrypted" "success") := rfl

/-- Decrypting a genuine envelope of the same key recovers the serialized
text and applies the `json.loads` fallback. -/
theorem decrypt_genuine (now : Nat) (key nonce : List Nat) (log : List LogEntry)
    (s : String) (ts em : String) :
    decrypt_data now ⟨key, log⟩
      { encrypted_data := xorStream key nonce 0 (utf8Encode s)
        nonce := nonce
        auth_tag := gcmTag key nonce (xorStream key nonce 0 (utf8Encode s))
        timestamp := ts
        encryption_method := em } =
      (some (match pyJsonLoads s with | some v => v | none => .jstr s),
       logSecurityEvent now ⟨key, log⟩ "data_decrypted" "success") := by
  unfold decrypt_data
  rw [if_pos rfl]
  dsimp only
  rw [xorStream_involutive, utf8_roundtrip]

theorem scanLoop_eq (now : Nat) (ds : String) : ∀ ps : List String,
    scanLoop now ds ps = (ps.filter (fun p => matchesPattern ds p)).map
      (fun p => ⟨"injection_attempt", p, "high", isoTimestamp now⟩) := by
  intro ps
  induction ps with
  | nil => rfl
  | cons p ps ihp =>
    by_cases hp : matchesPattern ds p
    · simp [scanLoop, hp, List.filter_cons, ihp]
    · simp [scanLoop, hp, List.filter_cons, ihp]

/-! ## Concrete instances used by witnesses and counterexamples -/

/-- A service instance with key bytes `[2]` (short keys keep kernel
evaluation in witnesses small; every general theorem quantifies over the
key). -/
def svc2 : QSM := ⟨[2], []⟩

/-- The spec's injection payload `{"q": "'; DROP TABLE users; --"}` (the
apostrophe written via its code point 39). -/
def injectionPayload : PyData :=
  .pdict [("q", .jstr (String.mk (Char.ofNat 39 :: "; DROP TABLE users; --".data)))]

/-- The spec's benign payload `{"q": "hello world"}`. -/
def benignPayload : PyData := .pdict [("q", .jstr "hello world")]

/-- An envelope no instance produced (tag `1` matches no computed tag in
the witnesses). -/
def envBad : Envelope := ⟨[], [], 1, "", ""⟩

/-! ## The claims -/

/-- C6: `scan` matches each denylist entry by case-insensitive substring
containment against the serialized payload, lists matches in denylist
declaration order with type `injection_attempt` and severity `high`,
reports level `high` exactly when a match exists, and on the two concrete
payloads of the spec behaves as stated. -/
theorem C6_scan_matching :
    (∀ (now : Nat) (st : QSM) (data : PyData),
      (scan_for_threats now st data).1.threats_detected =
        (suspicious_patterns.filter (fun p => matchesPattern (scanSerialize data) p)).map
          (fun p => ⟨"injection_attempt", p, "high", isoTimestamp now⟩) ∧
      (scan_for_threats now st data).1.security_level =
        (if (scan_for_threats now st data).1.threats_detected = [] then "secure" else "high")) ∧
    ((scan_for_threats 0 svc2 injectionPayload).1.threats_detected.any
      (fun t => t.type == "injection_attempt" && t.severity == "high")) = true ∧
    (scan_for_threats 0 svc2 injectionPayload).1.security_level = "high" ∧
    (scan_for_threats 0 svc2 benignPayload).1.threats_detected = [] ∧
    (scan_for_threats 0 svc2 benignPayload).1.security_level = "secure" := by
  refine ⟨fun now st data => ⟨?_, ?_⟩, by decide, by decide, by decide, by decide⟩
  · simp [scan_for_threats, scanLoop_eq]
  · dsimp only [scan_for_threats]
    rcases hsl : scanLoop now (scanSerialize data) suspicious_patterns with _ | ⟨a, as⟩ <;>
      simp [hsl]

/-- C10: `scan` emits at most one match entry per denylist pattern: the
reported patterns are exactly the distinct denylist patterns present (a
duplicate-free sublist of the denylist), and the count is their number,
hence at most 8. -/
theorem C10_scan_count : ∀ (now : Nat) (st : QSM) (data : PyData),
    ((scan_for_threats now st data).1.threats_detected.map (fun t => t.pattern)) =
      suspicious_patterns.filter (fun p => matchesPattern (scanSerialize data) p) ∧
    ((scan_for_threats now st data).1.threats_detected.map (fun t => t.pattern)).Nodup ∧
    (scan_for_threats now st data).1.threat_count =
      (suspicious_patterns.filter (fun p => matchesPattern (scanSerialize data) p)).length ∧
    (scan_for_threats now st data).1.threat_count ≤ 8 := by
  intro now st data
  have hmap : (scan_for_threats now st data).1.threats_detected.map (fun t => t.pattern) =
      suspicious_patterns.filter (fun p => matchesPattern (scanSerialize data) p) := by
    simp [scan_for_threats, scanLoop_eq, List.map_map, Function.comp_def]
  refine ⟨hmap, ?_, ?_, ?_⟩
  · rw [hmap]
    exact List.Nodup.filter _ (by decide)
  · simp [scan_for_threats, scanLoop_eq]
  · have hle : (suspicious_patterns.filter
        (fun p => matchesPattern (scanSerialize data) p)).length ≤ 8 := by
      calc (suspicious_patterns.filter (fun p => matchesPattern (scanSerialize data) p)).length
          ≤ suspicious_patterns.length := List.length_filter_le _ _
        _ = 8 := by decide
    have hc : (scan_for_threats now st data).1.threat_count =
        (suspicious_patterns.filter (fun p => matchesPattern (scanSerialize data) p)).length := by
      simp [scan_for_threats, scanLoop_eq]
    omega

/-- C7: two `hash` calls at the same second-resolution tick on the same
payload and key give identical results (the digest is a function of key,
tick, and payload only); the digest is the modelled SHA-256 of the
sorted-key serialization ‖ whole-second timestamp ‖ key-as-hex; and
`verify(P, hash(P))` at the same tick returns `true`. -/
theorem C7_hash_determinism : ∀ (now : Nat) (key : List Nat)
    (log1 log2 : List LogEntry) (data : PyData),
    (generate_secure_hash now ⟨key, log1⟩ data).1 =
      (generate_secure_hash now ⟨key, log2⟩ data).1 ∧
    (generate_secure_hash now ⟨key, log1⟩ data).1.lookup "hash" =
      some (sha256hex (hashSerialize data ++ String.mk (natDec now) ++ bytesHex key)) ∧
    (verify_integrity now ⟨key, log1⟩ data
      (generate_secure_hash now ⟨key, log1⟩ data).1).1 = some true := by
  intro now key log1 log2 data
  refine ⟨rfl, ?_, ?_⟩
  · simp [generate_secure_hash, List.lookup]
  · simp [verify_integrity, generate_secure_hash, List.lookup]

/-- Modelled from the spec: the verification rule the specification
describes — recompute the digest for the payload using the timestamp
embedded in the supplied tag (not the current time) and compare it with
the tag's digest field for exact equality. -/
def verify_as_specified (st : QSM) (data : PyData)
    (hash_info : List (String × String)) : Option Bool :=
  match (hash_info.lookup "timestamp", hash_info.lookup "hash") with
  | (some ts, some h) =>
    some (sha256hex (hashSerialize data ++ ts ++ bytesHex st.quantum_key) == h)
  | _ => none

/-- C3 (counterexample): for a tag generated at tick 5 and a `verify`
call at tick 9, the code returns `false` while the behavior the claim
describes (recomputing with the tag's embedded timestamp) yields `true` —
`verify_integrity` uses the current time, not the embedded timestamp. -/
theorem C3_counterexample :
    (verify_integrity 9 svc2 (.pstr "a")
      (generate_secure_hash 5 svc2 (.pstr "a")).1).1 = some false ∧
    verify_as_specified svc2 (.pstr "a")
      (generate_secure_hash 5 svc2 (.pstr "a")).1 = some true := by decide

/-- C3 (amended): `verify(P, T)` recomputes the digest of `P` using the
current time at the moment of the call and returns whether that digest
equals `T`'s `hash` field exactly, without touching the state. -/
theorem C3_amended : ∀ (now : Nat) (st : QSM) (data : PyData)
    (info : List (String × String)) (h : String),
    info.lookup "hash" = some h →
    ∃ c, (generate_secure_hash now st data).1.lookup "hash" = some c ∧
      (verify_integrity now st data info).1 = some (c == h) ∧
      (verify_integrity now st data info).2 = st := by
  intro now st data info h hl
  refine ⟨sha256hex (hashSerialize data ++ String.mk (natDec now) ++ bytesHex st.quantum_key),
    ?_, ?_, ?_⟩
  · simp [generate_secure_hash, List.lookup]
  · simp [verify_integrity, generate_secure_hash, List.lookup, hl]
  · simp [verify_integrity, generate_secure_hash, List.lookup, hl]

/-- C3 (witness). -/
theorem C3_amended_witness :
    ([("hash", "x")] : List (String × String)).lookup "hash" = some "x" ∧
    (∃ c, (generate_secure_hash 5 svc2 (.pstr "a")).1.lookup "hash" = some c ∧
      (verify_integrity 5 svc2 (.pstr "a") [("hash", "x")]).1 = some (c == "x") ∧
      (verify_integrity 5 svc2 (.pstr "a") [("hash", "x")]).2 = svc2) :=
  ⟨by decide, C3_amended 5 svc2 (.pstr "a") [("hash", "x")] "x" (by decide)⟩

/-- C4 (counterexample): `verify` on a tag without a `"hash"` field does
not return a boolean — `hash_info['hash']` raises an uncaught `KeyError`
(modelled as `none`), so `verify` is not total on malformed tags. -/
theorem C4_counterexample :
    (verify_integrity 0 svc2 (.pstr "x") []).1 = none := by decide

/-- C4 (amended): `encrypt` and `decrypt` catch their failures, append a
failure event with the (modelled) error text, and return `None`; `hash`
and `scan` are total by construction; `verify` returns a boolean for
every payload and every tag that has a `"hash"` field (but raises on a
tag lacking it, per the counterexample). -/
theorem C4_amended : ∀ (now : Nat) (nonce : List Nat) (st : QSM) (data : PyData)
    (env : Envelope) (info : List (String × String)),
    ((encrypt_data now nonce st data).1 = none →
      (encrypt_data now nonce st data).2 =
        logSecurityEvent now st "encryption_error" encodeAttrErr) ∧
    ((decrypt_data now st env).1 = none →
      ∃ msg, (decrypt_data now st env).2 =
        logSecurityEvent now st "decryption_error" msg) ∧
    ((info.lookup "hash").isSome → ∃ b, (verify_integrity now st data info).1 = some b) := by
  refine fun now nonce st data env info => ⟨?_, ?_, ?_⟩
  · intro h
    cases data with
    | pint i => rfl
    | pstr s => rw [encrypt_pstr] at h; simp at h
    | pdict d => rw [encrypt_pdict] at h; simp at h
  · intro h
    by_cases htag : env.auth_tag = gcmTag st.quantum_key env.nonce env.encrypted_data
    · cases hu : utf8Decode (xorStream st.quantum_key env.nonce 0 env.encrypted_data) with
      | none => exact ⟨unicodeErr, by simp [decrypt_data, htag, hu]⟩
      | some s =>
        exfalso
        simp [decrypt_data, htag, hu] at h
    · exact ⟨macCheckErr, by simp [decrypt_data, htag]⟩
  · intro hsome
    obtain ⟨hv, hh⟩ := Option.isSome_iff_exists.mp hsome
    exact ⟨sha256hex (hashSerialize data ++ String.mk (natDec now) ++
        bytesHex st.quantum_key) == hv,
      by simp [verify_integrity, generate_secure_hash, List.lookup, hh]⟩

/-- C4 (witness). -/
theorem C4_amended_witness :
    (encrypt_data 0 [0] svc2 (.pint 3)).2 =
      logSecurityEvent 0 svc2 "encryption_error" encodeAttrErr ∧
    (∃ msg, (decrypt_data 0 svc2 envBad).2 =
      logSecurityEvent 0 svc2 "decryption_error" msg) ∧
    (∃ b, (verify_integrity 0 svc2 (.pstr "x") [("hash", "x")]).1 = some b) :=
  ⟨(C4_amended 0 [0] svc2 (.pint 3) envBad [("hash", "x")]).1 rfl,
   (C4_amended 0 [0] svc2 (.pint 3) envBad [("hash", "x")]).2.1 (by decide),
   (C4_amended 0 [0] svc2 (.pstr "x") envBad [("hash", "x")]).2.2 (by decide)⟩

/-- C5: after more than 100 logged operations the status reports at most
100 events, and the retained entries are exactly the most recent ones in
call order (the tail of the full event sequence). -/
theorem C5_log_bound : ∀ (key : List Nat) (now : Nat) (evs : List (String × String)),
    evs.length > 100 →
    (get_security_status (runLog now ⟨key, []⟩ evs)).security_events ≤ 100 ∧
    (runLog now ⟨key, []⟩ evs).security_log =
      (evs.map (mkEntry now)).drop (evs.length - 100) := by
  intro key now evs h
  have hlog := runLog_log now evs ⟨key, []⟩ (by simp)
  simp only [List.nil_append] at hlog
  constructor
  · unfold get_security_status
    dsimp only
    rw [hlog]
    exact last100_length _
  · rw [hlog]
    unfold last100
    rw [List.length_map]

/-- C5 (witness). -/
theorem C5_log_bound_witness :
    (List.replicate 101 (("a", "b") : String × String)).length > 100 ∧
    ((get_security_status (runLog 0 ⟨[2], []⟩
        (List.replicate 101 ("a", "b")))).security_events ≤ 100 ∧
      (runLog 0 ⟨[2], []⟩ (List.replicate 101 ("a", "b"))).security_log =
        ((List.replicate 101 (("a", "b") : String × String)).map (mkEntry 0)).drop
          ((List.replicate 101 (("a", "b") : String × String)).length - 100)) :=
  ⟨by decide, C5_log_bound [2] 0 (List.replicate 101 ("a", "b")) (by decide)⟩

/-- C8 (counterexample): `hash` and `verify` do not append an event — on
a fresh instance the log is still empty after calling them, so not every
operation logs. -/
theorem C8_counterexample :
    (generate_secure_hash 0 svc2 (.pstr "x")).2.security_log = [] ∧
    (verify_integrity 0 svc2 (.pstr "x")
      (generate_secure_hash 0 svc2 (.pstr "x")).1).2.security_log = [] := by decide

/-- C8 (amended): `encrypt`, `decrypt`, and `scan` each append exactly
one event (the log becomes the capped extension of the old log by one
entry) whether they succeed or fail; `hash` and `verify` leave the state
untouched; no operation mutates anything else, and in the embedding the
log is only ever written by these operations. -/
theorem C8_amended : ∀ (now : Nat) (nonce : List Nat) (st : QSM) (data : PyData)
    (env : Envelope) (info : List (String × String)),
    (∃ e : LogEntry, (encrypt_data now nonce st data).2.security_log =
      last100 (st.security_log ++ [e])) ∧
    (∃ e : LogEntry, (decrypt_data now st env).2.security_log =
      last100 (st.security_log ++ [e])) ∧
    (∃ e : LogEntry, (scan_for_threats now st data).2.security_log =
      last100 (st.security_log ++ [e]) ∧ e.event_type = "threat_scan") ∧
    (generate_secure_hash now st data).2 = st ∧
    (verify_integrity now st data info).2 = st := by
  refine fun now nonce st data env info => ⟨?_, ?_, ?_, rfl, ?_⟩
  · cases data with
    | pint i => exact ⟨_, logSecurityEvent_log now st _ _⟩
    | pstr s => exact ⟨_, logSecurityEvent_log now st _ _⟩
    | pdict d => exact ⟨_, logSecurityEvent_log now st _ _⟩
  · by_cases htag : env.auth_tag = gcmTag st.quantum_key env.nonce env.encrypted_data
    · cases hu : utf8Decode (xorStream st.quantum_key env.nonce 0 env.encrypted_data) with
      | none =>
        refine ⟨⟨isoTimestamp now, "decryption_error", unicodeErr, "quantum_advanced"⟩, ?_⟩
        have hst : (decrypt_data now st env).2 =
            logSecurityEvent now st "decryption_error" unicodeErr := by
          simp [decrypt_data, htag, hu]
        rw [hst, logSecurityEvent_log]
      | some s =>
        refine ⟨⟨isoTimestamp now, "data_decrypted", "success", "quantum_advanced"⟩, ?_⟩
        have hst : (decrypt_data now st env).2 =
            logSecurityEvent now st "data_decrypted" "success" := by
          simp [decrypt_data, htag, hu]
        rw [hst, logSecurityEvent_log]
    · refine ⟨⟨isoTimestamp now, "decryption_error", macCheckErr, "quantum_advanced"⟩, ?_⟩
      have hst : (decrypt_data now st env).2 =
          logSecurityEvent now st "decryption_error" macCheckErr := by
        simp [decrypt_data, htag]
      rw [hst, logSecurityEvent_log]
  · refine ⟨⟨isoTimestamp now, "threat_scan", "threats_found: " ++
      String.mk (natDec (scanLoop now (scanSerialize data) suspicious_patterns).length),
      "quantum_advanced"⟩, ?_, rfl⟩
    have hst : (scan_for_threats now st data).2 = logSecurityEvent now st "threat_scan"
        ("threats_found: " ++
          String.mk (natDec (scanLoop now (scanSerialize data) suspicious_patterns).length)) :=
      rfl
    rw [hst, logSecurityEvent_log]
  · unfold verify_integrity
    split <;> rfl

theorem encrypt_nonce {now : Nat} {nonce : List Nat} {st : QSM} {data : PyData}
    {env : Envelope} (h : (encrypt_data now nonce st data).1 = some env) :
    env.nonce = nonce := by
  cases data with
  | pint i => simp [encrypt_data, encSerialize] at h
  | pstr s =>
    have h2 : some
        ({ encrypted_data := xorStream st.quantum_key nonce 0 (utf8Encode s)
           nonce := nonce
           auth_tag := gcmTag st.quantum_key nonce
             (xorStream st.quantum_key nonce 0 (utf8Encode s))
           timestamp := isoTimestamp now
           encryption_method := "AES-256-GCM-Quantum" } : Envelope) = some env := h
    rw [← Option.some.inj h2]
  | pdict d =>
    have h2 : some
        ({ encrypted_data := xorStream st.quantum_key nonce 0
             (utf8Encode (pyJsonDumps (.jobj d)))
           nonce := nonce
           auth_tag := gcmTag st.quantum_key nonce
             (xorStream st.quantum_key nonce 0 (utf8Encode (pyJsonDumps (.jobj d))))
           timestamp := isoTimestamp now
           encryption_method := "AES-256-GCM-Quantum" } : Envelope) = some env := h
    rw [← Option.some.inj h2]

/-- C9 (counterexample): the code draws a fresh random nonce per call but
neither checks for collisions nor regenerates, so when the entropy source
repeats a value (here `[5]` twice) two consecutive successful `encrypt`
calls on the same instance return envelopes with identical nonces. -/
theorem C9_counterexample :
    ((encrypt_data 0 [5] svc2 (.pstr "a")).1.map Envelope.nonce = some [5]) ∧
    ((encrypt_data 1 [5] (encrypt_data 0 [5] svc2 (.pstr "a")).2 (.pstr "a")).1.map
      Envelope.nonce = some [5]) := by decide

/-- C9 (amended): any two successful `encrypt` calls whose drawn nonces
differ return envelopes with distinct nonces — each envelope carries
exactly the nonce the random source supplied for that call, so the nonces
are pairwise distinct exactly when the drawn values are. -/
theorem C9_amended : ∀ (st st2 : QSM) (n1 n2 : List Nat) (d1 d2 : PyData)
    (now1 now2 : Nat) (env1 env2 : Envelope),
    n1 ≠ n2 →
    (encrypt_data now1 n1 st d1).1 = some env1 →
    (encrypt_data now2 n2 st2 d2).1 = some env2 →
    env1.nonce ≠ env2.nonce := by
  intro st st2 n1 n2 d1 d2 now1 now2 env1 env2 hne h1 h2
  rw [encrypt_nonce h1, encrypt_nonce h2]
  exact hne

/-- C9 (witness). -/
theorem C9_amended_witness :
    (([0] : List Nat) ≠ [1]) ∧
    ((encrypt_data 0 [0] svc2 (.pstr "a")).1 =
      some ⟨[103], [0], 117007492, isoTimestamp 0, "AES-256-GCM-Quantum"⟩) ∧
    ((encrypt_data 0 [1] svc2 (.pstr "a")).1 =
      some ⟨[104], [1], 121594732, isoTimestamp 0, "AES-256-GCM-Quantum"⟩) ∧
    (Envelope.nonce ⟨[103], [0], 117007492, isoTimestamp 0, "AES-256-GCM-Quantum"⟩ ≠
      Envelope.nonce ⟨[104], [1], 121594732, isoTimestamp 0, "AES-256-GCM-Quantum"⟩) :=
  have hn01 : (([0] : List Nat) ≠ [1]) := by decide
  have he0 : (encrypt_data 0 [0] svc2 (.pstr "a")).1 =
      some ⟨[103], [0], 117007492, isoTimestamp 0, "AES-256-GCM-Quantum"⟩ := by decide
  have he1 : (encrypt_data 0 [1] svc2 (.pstr "a")).1 =
      some ⟨[104], [1], 121594732, isoTimestamp 0, "AES-256-GCM-Quantum"⟩ := by decide
  ⟨hn01, he0, he1,
   C9_amended svc2 svc2 [0] [1] (.pstr "a") (.pstr "a") 0 0 _ _ hn01 he0 he1⟩

/-- C1 (counterexample): `decrypt(encrypt("123"))` returns the parsed
JSON value `123`, not the original text `"123"` — `decrypt_data` runs
`json.loads` over the recovered text and keeps the parsed value whenever
the text happens to be valid JSON, so text equality fails for strings
that parse as JSON. -/
theorem C1_counterexample :
    (match (encrypt_data 0 [0] svc2 (.pstr "123")).1 with
     | some env => (decrypt_data 1 (encrypt_data 0 [0] svc2 (.pstr "123")).2 env).1
     | none => none) = some (.jnum 123) ∧
    JValue.jnum 123 ≠ JValue.jstr "123" := ⟨by decide, by decide⟩

/-- C1 (amended): for every mapping payload, `decrypt(encrypt(P))`
returns `P` up to structural equality; for every string payload it
returns the `json.loads` of the text when that text is valid JSON and
the original text otherwise (so text equality holds exactly for strings
that are not themselves JSON). -/
theorem C1_roundtrip_amended : ∀ (key : List Nat) (log : List LogEntry)
    (nonce : List Nat) (now now2 : Nat) (s : String) (d : List (String × JValue)),
    (∃ env, (encrypt_data now nonce ⟨key, log⟩ (.pstr s)).1 = some env ∧
      (decrypt_data now2 (encrypt_data now nonce ⟨key, log⟩ (.pstr s)).2 env).1 =
        some (match pyJsonLoads s with | some v => v | none => .jstr s)) ∧
    (∃ env, (encrypt_data now nonce ⟨key, log⟩ (.pdict d)).1 = some env ∧
      (decrypt_data now2 (encrypt_data now nonce ⟨key, log⟩ (.pdict d)).2 env).1 =
        some (.jobj d)) := by
  intro key log nonce now now2 s d
  constructor
  · refine ⟨_, rfl, ?_⟩
    show (decrypt_data now2
      ⟨key, (logSecurityEvent now (⟨key, log⟩ : QSM) "data_encrypted"
        "success").security_log⟩
      { encrypted_data := xorStream key nonce 0 (utf8Encode s)
        nonce := nonce
        auth_tag := gcmTag key nonce (xorStream key nonce 0 (utf8Encode s))
        timestamp := isoTimestamp now
        encryption_method := "AES-256-GCM-Quantum" }).1 =
      some (match pyJsonLoads s with | some v => v | none => .jstr s)
    rw [decrypt_genuine]
  · refine ⟨_, rfl, ?_⟩
    have hd := decrypt_genuine now2 key nonce
      ((logSecurityEvent now (⟨key, log⟩ : QSM) "data_encrypted"
        "success").security_log) (pyJsonDumps (.jobj d)) (isoTimestamp now)
      "AES-256-GCM-Quantum"
    rw [pyJsonLoads_dumps] at hd
    show (decrypt_data now2
      ⟨key, (logSecurityEvent now (⟨key, log⟩ : QSM) "data_encrypted"
        "success").security_log⟩
      { encrypted_data := xorStream key nonce 0 (utf8Encode (pyJsonDumps (.jobj d)))
        nonce := nonce
        auth_tag := gcmTag key nonce
          (xorStream key nonce 0 (utf8Encode (pyJsonDumps (.jobj d))))
        timestamp := isoTimestamp now
        encryption_method := "AES-256-GCM-Quantum" }).1 = some (.jobj d)
    rw [hd]

/-- C2: decryption fails (returns `None`) on every envelope encrypted
under a different key, on every envelope of the own key whose ciphertext
was altered at any single byte position, and on every envelope whose
authentication tag was changed — never yielding a wrong plaintext.  Key
and nonce bytes are in the byte range (the contract of
`get_random_bytes`); the tag stand-in is injective on that range. -/
theorem C2_tamper_detection : ∀ (key key2 nonce : List Nat)
    (log log2 log3 : List LogEntry) (now now2 now3 now4 : Nat) (s : String)
    (env env2 : Envelope) (i v w t2 : Nat),
    (∀ x ∈ key, x < 256) → (∀ x ∈ key2, x < 256) → (∀ x ∈ nonce, x < 256) →
    key ≠ key2 →
    (encrypt_data now nonce ⟨key2, log2⟩ (.pstr s)).1 = some env →
    (encrypt_data now nonce ⟨key, log⟩ (.pstr s)).1 = some env2 →
    env2.encrypted_data.get? i = some w → v ≠ w → v < 2 ^ 21 →
    t2 ≠ env2.auth_tag →
    (decrypt_data now2 ⟨key, log3⟩ env).1 = none ∧
    (decrypt_data now3 ⟨key, log3⟩
      { env2 with encrypted_data := env2.encrypted_data.set i v }).1 = none ∧
    (decrypt_data now4 ⟨key, log3⟩ { env2 with auth_tag := t2 }).1 = none := by
  intro key key2 nonce log log2 log3 now now2 now3 now4 s env env2 i v w t2
    hk hk2 hn hne henv henv2 hw hvw hvb ht2
  have he : env =
      { encrypted_data := xorStream key2 nonce 0 (utf8Encode s)
        nonce := nonce
        auth_tag := gcmTag key2 nonce (xorStream key2 nonce 0 (utf8Encode s))
        timestamp := isoTimestamp now
        encryption_method := "AES-256-GCM-Quantum" } :=
    (Option.some.inj (show some _ = some env from henv)).symm
  have he2 : env2 =
      { encrypted_data := xorStream key nonce 0 (utf8Encode s)
        nonce := nonce
        auth_tag := gcmTag key nonce (xorStream key nonce 0 (utf8Encode s))
        timestamp := isoTimestamp now
        encryption_method := "AES-256-GCM-Quantum" } :=
    (Option.some.inj (show some _ = some env2 from henv2)).symm
  subst he he2
  have hb256 : ∀ {l : List Nat}, (∀ x ∈ l, x < 256) → ∀ x ∈ l, x < 2 ^ 22 - 1 :=
    fun h x hx => lt_trans (h x hx) (by norm_num)
  have hb21 : ∀ {l : List Nat}, (∀ x ∈ l, x < 2 ^ 21) → ∀ x ∈ l, x < 2 ^ 22 - 1 :=
    fun h x hx => lt_trans (h x hx) (by norm_num)
  have hct : ∀ x ∈ xorStream key nonce 0 (utf8Encode s), x < 2 ^ 21 :=
    xorStream_lt key nonce 0 _ (utf8Encode_lt s)
  have hctF : ∀ x ∈ xorStream key2 nonce 0 (utf8Encode s), x < 2 ^ 21 :=
    xorStream_lt key2 nonce 0 _ (utf8Encode_lt s)
  have hil : i < (xorStream key nonce 0 (utf8Encode s)).length := by
    by_contra hni
    rw [List.get?_eq_none.mpr (Nat.le_of_not_lt hni)] at hw
    exact Option.noConfusion hw
  have hctSet : ∀ x ∈ (xorStream key nonce 0 (utf8Encode s)).set i v, x < 2 ^ 21 := by
    intro x hx
    rcases List.mem_or_eq_of_mem_set hx with h | h
    · exact hct x h
    · subst h; exact hvb
  refine ⟨?_, ?_, ?_⟩
  · unfold decrypt_data
    rw [if_neg]
    intro heq
    dsimp only at heq
    have hinj := gcmTag_inj (hb256 hk2) (hb256 hn) (hb21 hctF)
      (hb256 hk) (hb256 hn) (hb21 hctF) heq
    exact hne hinj.1.symm
  · unfold decrypt_data
    rw [if_neg]
    intro heq
    dsimp only at heq
    have hinj := gcmTag_inj (hb256 hk) (hb256 hn) (hb21 hct)
      (hb256 hk) (hb256 hn) (hb21 hctSet) heq
    have hceq := hinj.2.2
    have hv2 : ((xorStream key nonce 0 (utf8Encode s)).set i v).get? i = some v :=
      List.get?_set_eq_of_lt v hil
    rw [← hceq] at hv2
    dsimp only at hw
    rw [hw] at hv2
    exact hvw (Option.some.inj hv2).symm
  · unfold decrypt_data
    rw [if_neg]
    intro heq
    dsimp only at heq
    exact ht2 heq

/-- The envelope `encrypt` produces under key `[2]`, nonce `[0]`, payload
`"a"` at tick 0 (used as the foreign envelope in the C2 witness). -/
def envForeign : Envelope := ⟨[103], [0], 117007492, isoTimestamp 0, "AES-256-GCM-Quantum"⟩

/-- The envelope `encrypt` produces under key `[1]`, nonce `[0]`, payload
`"a"` at tick 0 (the own-key envelope in the C2 witness). -/
def envOwn1 : Envelope := ⟨[100], [0], 104080806, isoTimestamp 0, "AES-256-GCM-Quantum"⟩

/-- C2 (witness). -/
theorem C2_tamper_detection_witness :
    (∀ x ∈ ([1] : List Nat), x < 256) ∧ (∀ x ∈ ([2] : List Nat), x < 256) ∧
    (∀ x ∈ ([0] : List Nat), x < 256) ∧ ([1] : List Nat) ≠ [2] ∧
    (encrypt_data 0 [0] svc2 (.pstr "a")).1 = some envForeign ∧
    (encrypt_data 0 [0] ⟨[1], []⟩ (.pstr "a")).1 = some envOwn1 ∧
    envOwn1.encrypted_data.get? 0 = some 100 ∧ (7 : Nat) ≠ 100 ∧ (7 : Nat) < 2 ^ 21 ∧
    (5 : Nat) ≠ envOwn1.auth_tag ∧
    ((decrypt_data 0 ⟨[1], []⟩ envForeign).1 = none ∧
     (decrypt_data 0 ⟨[1], []⟩
       { envOwn1 with encrypted_data := envOwn1.encrypted_data.set 0 7 }).1 = none ∧
     (decrypt_data 0 ⟨[1], []⟩ { envOwn1 with auth_tag := 5 }).1 = none) :=
  have hb1 : ∀ x ∈ ([1] : List Nat), x < 256 := by decide
  have hb2 : ∀ x ∈ ([2] : List Nat), x < 256 := by decide
  have hb0 : ∀ x ∈ ([0] : List Nat), x < 256 := by decide
  have hkne : ([1] : List Nat) ≠ [2] := by decide
  have henF : (encrypt_data 0 [0] svc2 (.pstr "a")).1 = some envForeign := by decide
  have henO : (encrypt_data 0 [0] ⟨[1], []⟩ (.pstr "a")).1 = some envOwn1 := by decide
  have hget : envOwn1.encrypted_data.get? 0 = some 100 := by decide
  have hvne : (7 : Nat) ≠ 100 := by norm_num
  have hvlt : (7 : Nat) < 2 ^ 21 := by norm_num
  have htne : (5 : Nat) ≠ envOwn1.auth_tag := by decide
  ⟨hb1, hb2, hb0, hkne, henF, henO, hget, hvne, hvlt, htne,
   C2_tamper_detection [1] [2] [0] [] [] [] 0 0 0 0 "a" envForeign envOwn1 0 7 100 5
     hb1 hb2 hb0 hkne henF henO hget hvne hvlt htne⟩
